import Mathlib

/-!
# ndArray (`mex_arrays.h`): index arithmetic, access operators, type table

A shallow embedding of the header `src/mex_arrays.h`.

* `unsigned` is a 32-bit machine integer: a natural number below `2^32`, with sums and
  products reduced modulo `2^32` (`uadd`, `umul`) and a remainder that is undefined for a
  zero divisor (`umod`, which then yields `none`).
* A `const unsigned*` argument is the array it points to, a `List Nat`; reading a cell
  that the array does not have is undefined behaviour and yields `none`.
* The header is compiled with `MEX_ARRAY_SAFE_ACCESS` defined (line 24), so the embedding
  follows the `#ifdef` branches.
* A `T&` is the memory location it designates (`Ref`); the element type `T` itself plays
  no part in the address computations.
-/

namespace MexArrays

/-! ## Unsigned arithmetic -/

/-- Number of values of the C type `unsigned`. -/
def U32 : Nat := 4294967296

/-- Unsigned addition `a + b`. -/
def uadd (a b : Nat) : Nat := (a + b) % U32

/-- Unsigned multiplication `a * b`. -/
def umul (a b : Nat) : Nat := (a * b) % U32

/-- Unsigned remainder `a % b`; undefined for `b = 0`. -/
def umod (a b : Nat) : Option Nat := if b = 0 then none else some (a % b)

/-- The macro `MEX_ARRAY_PROTECT(k,n)` with `MEX_ARRAY_SAFE_ACCESS` defined: `(k % n)`. -/
def MEX_ARRAY_PROTECT (k n : Nat) : Option Nat := umod k n

/-! ## Type-classification table (`mx_type`) -/

/-- The class tags of `mxClassID` that the header refers to (declared in `mex.h`). -/
inductive mxClassID where
  | mxINT8_CLASS
  | mxUINT8_CLASS
  | mxINT16_CLASS
  | mxUINT16_CLASS
  | mxINT32_CLASS
  | mxUINT32_CLASS
  | mxSINGLE_CLASS
  | mxDOUBLE_CLASS
  deriving DecidableEq, Repr

/-- The eight scalar types for which `mx_type` is specialised. -/
inductive Scalar where
  | char
  | unsigned_char
  | short
  | unsigned_short
  | int
  | unsigned_int
  | float
  | double
  deriving DecidableEq, Repr

/-- A scalar type, possibly `const`-qualified: the sixteen types with an `mx_type`. -/
inductive CType where
  | plain (s : Scalar)
  | const (s : Scalar)
  deriving DecidableEq, Repr

/-- The member `mx_type<T>::name`, lines 52-59 and 72-79. -/
def mx_type_name : CType → String
  | .plain .char => "int8"
  | .plain .unsigned_char => "uint8"
  | .plain .short => "int16"
  | .plain .unsigned_short => "uint16"
  | .plain .int => "int32"
  | .plain .unsigned_int => "uint32"
  | .plain .float => "single"
  | .plain .double => "double"
  | .const .char => "int8"
  | .const .unsigned_char => "uint8"
  | .const .short => "int16"
  | .const .unsigned_short => "uint16"
  | .const .int => "int32"
  | .const .unsigned_int => "uint32"
  | .const .float => "single"
  | .const .double => "double"

/-- The member `mx_type<T>::id`, lines 61-68 and 81-88. -/
def mx_type_id : CType → mxClassID
  | .plain .char => .mxINT8_CLASS
  | .plain .unsigned_char => .mxUINT8_CLASS
  | .plain .short => .mxINT16_CLASS
  | .plain .unsigned_short => .mxUINT16_CLASS
  | .plain .int => .mxINT32_CLASS
  | .plain .unsigned_int => .mxUINT32_CLASS
  | .plain .float => .mxSINGLE_CLASS
  | .plain .double => .mxDOUBLE_CLASS
  | .const .char => .mxINT8_CLASS
  | .const .unsigned_char => .mxUINT8_CLASS
  | .const .short => .mxINT16_CLASS
  | .const .unsigned_short => .mxUINT16_CLASS
  | .const .int => .mxINT32_CLASS
  | .const .unsigned_int => .mxUINT32_CLASS
  | .const .float => .mxSINGLE_CLASS
  | .const .double => .mxDOUBLE_CLASS

/-! ## Index arithmetic (`sub2ind`) -/

/-- The loop of the primary template `sub2ind<N>(subs, size, strides)`, lines 105-112:
`k` iterations remain, the loop variable is `i` and the accumulator is `ind`. Each
iteration performs `ind += ( subs[i] % size[i] ) * strides[i]`. -/
def sub2indLoop.go (subs size strides : List Nat) : Nat → Nat → Nat → Option Nat
  | 0, _, ind => some ind
  | k + 1, i, ind =>
    match subs[i]?, size[i]?, strides[i]? with
    | some s, some n, some st =>
      match umod s n with
      | some r => sub2indLoop.go subs size strides k (i + 1) (uadd ind (umul r st))
      | none => none
    | _, _, _ => none

/-- The primary template `sub2ind<N>(subs, size, strides)`, lines 100-115: `ind` starts
at `0` and the loop runs for `i = 0, ..., N-1`. -/
def sub2indLoop (N : Nat) (subs size strides : List Nat) : Option Nat :=
  sub2indLoop.go subs size strides N 0 0

/-- The call `sub2ind<N>(subs, size, strides)` after overload resolution: the explicit
specialisations for `N = 0, 1, 2` (lines 134-142) replace the primary template. -/
def sub2ind (N : Nat) (subs size strides : List Nat) : Option Nat :=
  match N with
  | 0 => some 0
  | 1 => subs[0]?
  | 2 =>
    match subs[0]?, subs[1]?, size[0]? with
    | some s0, some s1, some n0 => some (uadd s0 (umul s1 n0))
    | _, _, _ => none
  | _ => sub2indLoop N subs size strides

/-- A `va_list`: the arguments not yet read, and whether the list is still usable
(`va_start` done, `va_end` not yet). -/
structure VaList where
  args : List Nat
  live : Bool
  deriving DecidableEq, Repr

/-- The call `va_start(vl, i)`: `rest` are the arguments that follow the named one. -/
def va_start (rest : List Nat) : VaList := { args := rest, live := true }

/-- The call `va_arg(vl, unsigned)`: reads the next argument; undefined when the list is
exhausted or closed. -/
def va_arg (vl : VaList) : Option (Nat × VaList) :=
  if vl.live then
    match vl.args with
    | [] => none
    | x :: rest => some (x, { vl with args := rest })
  else none

/-- The call `va_end(vl)`. -/
def va_end (vl : VaList) : VaList := { vl with live := false }

/-- The loop of `sub2ind<N>(vl, size, strides)`, lines 122-129: `k` iterations remain,
the loop variable is `i`, the accumulator is `ind`. Each iteration performs
`ind += ( va_arg(vl,unsigned) % size[i] ) * strides[i]`. -/
def sub2indVa.go (size strides : List Nat) : Nat → Nat → Nat → VaList → Option (Nat × VaList)
  | 0, _, ind, vl => some (ind, vl)
  | k + 1, i, ind, vl =>
    match va_arg vl, size[i]?, strides[i]? with
    | some (x, vl1), some n, some st =>
      match umod x n with
      | some r => sub2indVa.go size strides k (i + 1) (uadd ind (umul r st)) vl1
      | none => none
    | _, _, _ => none

/-- The template `sub2ind<N>(vl, size, strides)`, lines 117-132: the loop runs for
`i = 1, ..., N-1`, then `va_end(vl)`; returns `ind` together with the final `va_list`.
There is no specialisation of this overload. -/
def sub2indVa (N : Nat) (vl : VaList) (size strides : List Nat) : Option (Nat × VaList) :=
  match sub2indVa.go size strides (N - 1) 1 0 vl with
  | some (ind, vl1) => some (ind, va_end vl1)
  | none => none

/-! ## The empty-access guard -/

/-- A pointer `T*`: null, or the address of a buffer. -/
inductive Ptr where
  | null
  | addr (base : Nat)
  deriving DecidableEq, Repr

/-- The location a `T&` designates: the static `singleton<T>::instance`, or the cell
`p[k]` reached from a pointer `p`. -/
inductive Ref where
  | sentinel
  | elem (p : Ptr) (k : Nat)
  deriving DecidableEq, Repr

/-- The operator `fake_array<T>::operator[](n)`, line 160. -/
def fake_array_index (_n : Nat) : Ref := Ref.sentinel

/-- An object of type `fake_array<T>`: the struct has no data members. -/
structure fake_array where
  deriving DecidableEq, Repr

/-- The expression `self[n]` for an object `self` of type `fake_array<T>`, line 160. -/
def fake_array.get (_self : fake_array) (n : Nat) : Ref := fake_array_index n

/-- The values of type `T` held by the locations. -/
def Store (T : Type) : Type := Ref → T

/-- Reading through a reference. -/
def Store.read {T : Type} (s : Store T) (r : Ref) : T := s r

/-- Assigning `v` through the reference `r`. -/
def Store.write {T : Type} (s : Store T) (r : Ref) (v : T) : Store T :=
  fun q => if q = r then v else s q

/-- The store after static initialisation, line 150: `singleton<T>::instance = T()`,
where `default` stands for the value-initialised `T()`; `cells` are the values of the
other locations. -/
def Store.initial {T : Type} [Inhabited T] (cells : Ptr → Nat → T) : Store T
  | Ref.sentinel => default
  | Ref.elem p k => cells p k

/-! ## Pointer arithmetic

Addresses are counted in cells of type `T`. -/

/-- The expression `p + k`; on the null pointer only `nullptr + 0` is defined. -/
def Ptr.add : Ptr → Nat → Option Ptr
  | Ptr.null, 0 => some Ptr.null
  | Ptr.null, _ + 1 => none
  | Ptr.addr b, k => some (Ptr.addr (b + k))

/-- The expression `q - p`, the number of cells from `p` to `q`; defined for two null
pointers and for two addresses. -/
def Ptr.diff : Ptr → Ptr → Option Int
  | Ptr.null, Ptr.null => some 0
  | Ptr.addr c, Ptr.addr b => some ((c : Int) - (b : Int))
  | _, _ => none

/-! ## The release action `no_delete` -/

/-- The memory a release action could touch: which addresses are allocated, and the
contents of the cells. -/
structure Memory where
  allocated : Nat → Bool
  contents : Nat → Nat → Int

/-- State of a call of `no_delete<T>::operator()`: the memory, the pointer held by the
caller, and the by-value parameter `ptr` of the callee. -/
structure DeleterCall where
  mem : Memory
  caller : Ptr
  ptr : Ptr

/-- The call `no_delete<T>()(p)`, line 170: the parameter `ptr` is initialised with a
copy of the caller's pointer, then the body executes `ptr = nullptr`. -/
def no_delete_call (mem : Memory) (p : Ptr) : DeleterCall :=
  let entry : DeleterCall := { mem := mem, caller := p, ptr := p }
  { entry with ptr := Ptr.null }

/-! ## The class `ndArray<T,N>` -/

/-- The data members of `ndArray<T,N>`, lines 282-286; `m_data` is the pointer stored in
the `shared_ptr`, null when nothing is bound. The arrays `m_size` and `m_strides` have
`N` cells. -/
structure ndArray where
  m_numel : Nat
  m_size : List Nat
  m_strides : List Nat
  m_data : Ptr
  deriving DecidableEq, Repr

namespace ndArray

/-- The member `data()`, line 256: `m_data.get()`. -/
def data (a : ndArray) : Ptr := a.m_data

/-- The member `empty()`, line 207. -/
def empty (a : ndArray) : Bool := a.m_data = Ptr.null

/-- The member `operator[](unsigned n)`, lines 240-241:
`data()[MEX_ARRAY_PROTECT(n,N)]`. -/
def index (N : Nat) (a : ndArray) (n : Nat) : Option Ref :=
  match MEX_ARRAY_PROTECT n N with
  | some k => some (Ref.elem a.data k)
  | none => none

/-- The member `operator[](const unsigned* subs)`, lines 244-245:
`data()[ sub2ind<N>(subs, m_size, m_strides) ]`. -/
def indexSubs (N : Nat) (a : ndArray) (subs : List Nat) : Option Ref :=
  match sub2ind N subs a.m_size a.m_strides with
  | some k => some (Ref.elem a.data k)
  | none => none

/-- The member `operator()(unsigned i, ...)`, lines 248-252: `va_start(vl,i)` and then
`data()[ i+sub2ind<N>(vl, m_size, m_strides) ]`. -/
def call (N : Nat) (a : ndArray) (i : Nat) (rest : List Nat) : Option Ref :=
  match sub2indVa N (va_start rest) a.m_size a.m_strides with
  | some (k, _) => some (Ref.elem a.data (uadd i k))
  | none => none

/-- The member `begin()`, line 260: `data()`. -/
def begin (a : ndArray) : Ptr := a.data

/-- The member `end()`, line 261: `data() + m_numel`. -/
def end_ (a : ndArray) : Option Ptr := Ptr.add a.data a.m_numel

/-- The member `size(unsigned n)`, line 271: `m_size[ n % N ]`. -/
def size (N : Nat) (a : ndArray) (n : Nat) : Option Nat :=
  match umod n N with
  | some k => a.m_size[k]?
  | none => none

/-- The member `stride(unsigned n)`, line 273: `m_strides[ n % N ]`. -/
def stride (N : Nat) (a : ndArray) (n : Nat) : Option Nat :=
  match umod n N with
  | some k => a.m_strides[k]?
  | none => none

/-- The member `numel()`, line 274. -/
def numel (a : ndArray) : Nat := a.m_numel

end ndArray

/-! ## Metadata of a bound and of an empty array

The member functions `assign` and `clear` are declared in the header and defined in
`mex_arrays.hpp`, which is not part of the sources at hand. -/

/-- Modelled from the spec: the strides that `assign` (in `mex_arrays.hpp`, absent)
derives from the extents, "`strides[0] = 1` and `strides[i] = strides[i-1] * size[i-1]`".
`stridesFrom st size` lists the strides of the dimensions of `size` when the stride of
the first of them is `st`; products are unsigned, as `m_strides` is `unsigned[N]`. -/
def stridesFrom (st : Nat) : List Nat → List Nat
  | [] => []
  | n :: rest => st :: stridesFrom (umul st n) rest

/-- Modelled from the spec: column-major strides of the extents `size` (see
`stridesFrom`), computed by the absent `mex_arrays.hpp`. -/
def columnMajor (size : List Nat) : List Nat := stridesFrom 1 size

/-- Modelled from the spec: an array bound to the buffer at `base` with extents `size`,
as the absent `assign` leaves it: "`numel`: total element count (product of extents)",
strides column-major. -/
def bound (base : Nat) (size : List Nat) : ndArray :=
  { m_numel := size.prod % U32, m_size := size, m_strides := columnMajor size,
    m_data := Ptr.addr base }

/-- Modelled from the spec: the empty array of rank `N`, as the absent `clear` leaves
it: "`numel == 0`, `size` and `strides` all zero, and a null ownership handle". -/
def emptyArray (N : Nat) : ndArray :=
  { m_numel := 0, m_size := List.replicate N 0, m_strides := List.replicate N 0,
    m_data := Ptr.null }

/-- Every cell of the array holds a value of type `unsigned`. -/
def AllU32 (xs : List Nat) : Prop := ∀ x ∈ xs, x < U32

/-- Every extent is positive. -/
def AllPos (xs : List Nat) : Prop := ∀ x ∈ xs, 0 < x

/-- The subscripts `subs` are valid for the extents `size`: `subs[i] < size[i]` for every
dimension `i < N`. -/
def ValidSubs (N : Nat) (subs size : List Nat) : Prop :=
  ∀ i, i < N → subs.getD i 0 < size.getD i 0

instance (xs : List Nat) : Decidable (AllU32 xs) := by unfold AllU32; infer_instance
instance (xs : List Nat) : Decidable (AllPos xs) := by unfold AllPos; infer_instance
instance (N : Nat) (subs size : List Nat) : Decidable (ValidSubs N subs size) := by
  unfold ValidSubs; infer_instance

/-! ## Mixed-radix reading of subscripts

Two functions used to state and prove the properties of the offsets; they are not part
of the header. -/

/-- The value of the subscripts, each reduced modulo its extent, read as digits in the
mixed radix of the extents with dimension 0 least significant:
`(subs[0] mod size[0]) + size[0] * ((subs[1] mod size[1]) + size[1] * ...)`. -/
def radixValue : List Nat → List Nat → Nat
  | s :: subs, n :: size => s % n + n * radixValue subs size
  | _, _ => 0

/-- The digits of `off` in the mixed radix of the extents `size`, dimension 0 first. -/
def offsetToSubs : List Nat → Nat → List Nat
  | [], _ => []
  | n :: size, off => off % n :: offsetToSubs size (off / n)

/-! ## Auxiliary lemmas -/

theorem getElem?_eq_some_getD (xs : List Nat) (i : Nat) (h : i < xs.length) :
    xs[i]? = some (xs.getD i 0) := by
  simp [List.getD_eq_getElem?_getD, List.getElem?_eq_getElem h]

theorem umod_of_ne_zero (a b : Nat) (h : b ≠ 0) : umod a b = some (a % b) := by
  simp [umod, h]

theorem uadd_lt (a b : Nat) : uadd a b < U32 :=
  Nat.mod_lt _ (by decide)

/-- The generic loop, started at dimension `i` with `k` iterations to go, returns the
accumulator plus the wrapped terms of the dimensions `i, ..., i+k-1`, modulo `2^32`. -/
theorem sub2indLoop_go_eq (subs size strides : List Nat) :
    ∀ (k i ind : Nat), i + k ≤ subs.length → i + k ≤ size.length →
      i + k ≤ strides.length → (∀ n ∈ size, n ≠ 0) → ind < U32 →
      sub2indLoop.go subs size strides k i ind
        = some ((ind + ∑ j in Finset.range k,
            (subs.getD (i + j) 0 % size.getD (i + j) 0) * strides.getD (i + j) 0) % U32) := by
  intro k
  induction k with
  | zero =>
    intro i ind _ _ _ _ hind
    simp [sub2indLoop.go, Nat.mod_eq_of_lt hind]
  | succ k ih =>
    intro i ind hs hn ht hnz hind
    have hsi := getElem?_eq_some_getD subs i (by omega)
    have hni := getElem?_eq_some_getD size i (by omega)
    have hti := getElem?_eq_some_getD strides i (by omega)
    have hmem : size.getD i 0 ∈ size := by
      have h : i < size.length := by omega
      rw [List.getD_eq_getElem?_getD, List.getElem?_eq_getElem h]
      exact List.getElem_mem h
    have hmod := umod_of_ne_zero (subs.getD i 0) (size.getD i 0) (hnz _ hmem)
    simp only [sub2indLoop.go, hsi, hni, hti, hmod]
    rw [ih (i + 1) _ (by omega) (by omega) (by omega) hnz (uadd_lt _ _)]
    rw [Finset.sum_range_succ']
    have hidx : ∀ j, i + 1 + j = i + (j + 1) := fun j => by omega
    simp only [hidx, Nat.add_zero, uadd, umul]
    generalize (∑ j in Finset.range k,
      (subs.getD (i + (j + 1)) 0 % size.getD (i + (j + 1)) 0) * strides.getD (i + (j + 1)) 0) = R
    generalize (subs.getD i 0 % size.getD i 0) * strides.getD i 0 = P
    simp only [U32]
    congr 1
    omega

/-- The variadic loop, started at dimension `i` with `k` iterations to go on the unread
arguments `xs`, pairs the `j`-th of them with dimension `i + j`, and leaves the list
open with the arguments after the first `k`. -/
theorem sub2indVa_go_eq (size strides : List Nat) :
    ∀ (k i ind : Nat) (xs : List Nat), k ≤ xs.length → i + k ≤ size.length →
      i + k ≤ strides.length → (∀ n ∈ size, n ≠ 0) → ind < U32 →
      sub2indVa.go size strides k i ind { args := xs, live := true }
        = some ((ind + ∑ j in Finset.range k,
            (xs.getD j 0 % size.getD (i + j) 0) * strides.getD (i + j) 0) % U32,
            { args := xs.drop k, live := true }) := by
  intro k
  induction k with
  | zero =>
    intro i ind xs _ _ _ _ hind
    simp [sub2indVa.go, Nat.mod_eq_of_lt hind]
  | succ k ih =>
    intro i ind xs hx hn ht hnz hind
    match xs, hx with
    | x :: xs1, hx =>
      have hni := getElem?_eq_some_getD size i (by omega)
      have hti := getElem?_eq_some_getD strides i (by omega)
      have hmem : size.getD i 0 ∈ size := by
        have h : i < size.length := by omega
        rw [List.getD_eq_getElem?_getD, List.getElem?_eq_getElem h]
        exact List.getElem_mem h
      have hmod := umod_of_ne_zero x (size.getD i 0) (hnz _ hmem)
      have hx1 : k ≤ xs1.length := by simpa using hx
      simp only [sub2indVa.go, va_arg, if_true, hni, hti, hmod]
      rw [ih (i + 1) _ xs1 hx1 (by omega) (by omega) hnz (uadd_lt _ _)]
      rw [Finset.sum_range_succ']
      have hidx : ∀ j, i + 1 + j = i + (j + 1) := fun j => by omega
      simp only [hidx, Nat.add_zero, uadd, umul, List.getD_cons_succ, List.getD_cons_zero,
        List.drop_succ_cons]
      generalize (∑ j in Finset.range k,
        (xs1.getD j 0 % size.getD (i + (j + 1)) 0) * strides.getD (i + (j + 1)) 0) = R
      generalize (x % size.getD i 0) * strides.getD i 0 = P
      simp only [U32]
      congr 2
      omega

theorem stridesFrom_length (st : Nat) (size : List Nat) :
    (stridesFrom st size).length = size.length := by
  induction size generalizing st with
  | nil => rfl
  | cons n rest ih => simp [stridesFrom, ih]

theorem columnMajor_length (size : List Nat) : (columnMajor size).length = size.length :=
  stridesFrom_length 1 size

theorem allPos_ne_zero {size : List Nat} (h : AllPos size) : ∀ n ∈ size, n ≠ 0 :=
  fun n hn => Nat.pos_iff_ne_zero.mp (h n hn)

/-- Offset used by the coordinate call `a(i, rest...)` on an array of rank `N ≥ 1` with
positive extents: `i` plus the wrapped terms of the dimensions `1, ..., N-1`. -/
theorem ndArray_call_offset (N : Nat) (a : ndArray) (i : Nat) (rest : List Nat)
    (hrest : N - 1 ≤ rest.length) (hN : 1 ≤ N) (hsize : a.m_size.length = N)
    (hstrides : a.m_strides.length = N) (hpos : AllPos a.m_size) :
    a.call N i rest
      = some (Ref.elem a.data ((i + ∑ j in Finset.range (N - 1),
          (rest.getD j 0 % a.m_size.getD (1 + j) 0) * a.m_strides.getD (1 + j) 0) % U32)) := by
  have h := sub2indVa_go_eq a.m_size a.m_strides (N - 1) 1 0 rest hrest (by omega) (by omega)
    (allPos_ne_zero hpos) (by decide)
  simp only [ndArray.call, sub2indVa, va_start, h, uadd, Nat.zero_add]
  simp only [U32]
  congr 2
  omega

/-- The generic loop, started at dimension `i` with `k` iterations to go, has a defined
result exactly when the extents of the dimensions `i, ..., i+k-1` are non-zero. -/
theorem sub2indLoop_go_isSome (subs size strides : List Nat) :
    ∀ (k i ind : Nat), i + k ≤ subs.length → i + k ≤ size.length →
      i + k ≤ strides.length →
      ((sub2indLoop.go subs size strides k i ind).isSome = true
        ↔ ∀ j, i ≤ j → j < i + k → size.getD j 0 ≠ 0) := by
  intro k
  induction k with
  | zero =>
    intro i ind _ _ _
    simp only [sub2indLoop.go, Option.isSome_some, true_iff]
    intro j h1 h2
    omega
  | succ k ih =>
    intro i ind hs hn ht
    have hsi := getElem?_eq_some_getD subs i (by omega)
    have hni := getElem?_eq_some_getD size i (by omega)
    have hti := getElem?_eq_some_getD strides i (by omega)
    simp only [sub2indLoop.go, hsi, hni, hti]
    by_cases hz : size.getD i 0 = 0
    · simp only [umod, hz, if_true, Option.isSome_none, Bool.false_eq_true, false_iff]
      intro h
      exact h i (Nat.le_refl i) (by omega) hz
    · rw [umod_of_ne_zero _ _ hz]
      simp only
      rw [ih (i + 1) _ (by omega) (by omega) (by omega)]
      constructor
      · intro h j h1 h2
        by_cases hj : j = i
        · rw [hj]
          exact hz
        · exact h j (by omega) (by omega)
      · intro h j h1 h2
        exact h j (by omega) (by omega)

/-- The variadic loop, started at dimension `i` with `k` iterations to go on at least `k`
unread arguments, has a defined result exactly when the extents of the dimensions
`i, ..., i+k-1` are non-zero. -/
theorem sub2indVa_go_isSome (size strides : List Nat) :
    ∀ (k i ind : Nat) (xs : List Nat), k ≤ xs.length → i + k ≤ size.length →
      i + k ≤ strides.length →
      ((sub2indVa.go size strides k i ind { args := xs, live := true }).isSome = true
        ↔ ∀ j, i ≤ j → j < i + k → size.getD j 0 ≠ 0) := by
  intro k
  induction k with
  | zero =>
    intro i ind xs _ _ _
    simp only [sub2indVa.go, Option.isSome_some, true_iff]
    intro j h1 h2
    omega
  | succ k ih =>
    intro i ind xs hx hn ht
    match xs, hx with
    | x :: xs1, hx =>
      have hni := getElem?_eq_some_getD size i (by omega)
      have hti := getElem?_eq_some_getD strides i (by omega)
      have hx1 : k ≤ xs1.length := by simpa using hx
      simp only [sub2indVa.go, va_arg, if_true, hni, hti]
      by_cases hz : size.getD i 0 = 0
      · simp only [umod, hz, if_true, Option.isSome_none, Bool.false_eq_true, false_iff]
        intro h
        exact h i (Nat.le_refl i) (by omega) hz
      · rw [umod_of_ne_zero _ _ hz]
        simp only
        rw [ih (i + 1) _ xs1 hx1 (by omega) (by omega)]
        constructor
        · intro h j h1 h2
          by_cases hj : j = i
          · rw [hj]
            exact hz
          · exact h j (by omega) (by omega)
        · intro h j h1 h2
          exact h j (by omega) (by omega)

/-- The variadic loop, when the extents of the dimensions it visits are non-zero: the
value, and the list it leaves behind. -/
theorem sub2indVa_go_visited (size strides : List Nat) :
    ∀ (k i ind : Nat) (xs : List Nat), k ≤ xs.length → i + k ≤ size.length →
      i + k ≤ strides.length → (∀ j, i ≤ j → j < i + k → size.getD j 0 ≠ 0) → ind < U32 →
      sub2indVa.go size strides k i ind { args := xs, live := true }
        = some ((ind + ∑ j in Finset.range k,
            (xs.getD j 0 % size.getD (i + j) 0) * strides.getD (i + j) 0) % U32,
            { args := xs.drop k, live := true }) := by
  intro k
  induction k with
  | zero =>
    intro i ind xs _ _ _ _ hind
    simp [sub2indVa.go, Nat.mod_eq_of_lt hind]
  | succ k ih =>
    intro i ind xs hx hn ht hnz hind
    match xs, hx with
    | x :: xs1, hx =>
      have hni := getElem?_eq_some_getD size i (by omega)
      have hti := getElem?_eq_some_getD strides i (by omega)
      have hmod := umod_of_ne_zero x (size.getD i 0) (hnz i (Nat.le_refl i) (by omega))
      have hx1 : k ≤ xs1.length := by simpa using hx
      simp only [sub2indVa.go, va_arg, if_true, hni, hti, hmod]
      rw [ih (i + 1) _ xs1 hx1 (by omega) (by omega)
        (fun j h1 h2 => hnz j (by omega) (by omega)) (uadd_lt _ _)]
      rw [Finset.sum_range_succ']
      have hidx : ∀ j, i + 1 + j = i + (j + 1) := fun j => by omega
      simp only [hidx, Nat.add_zero, uadd, umul, List.getD_cons_succ, List.getD_cons_zero,
        List.drop_succ_cons]
      generalize (∑ j in Finset.range k,
        (xs1.getD j 0 % size.getD (i + (j + 1)) 0) * strides.getD (i + (j + 1)) 0) = R
      generalize (x % size.getD i 0) * strides.getD i 0 = P
      simp only [U32]
      congr 2
      omega

theorem prod_pos_of_allPos {size : List Nat} (h : AllPos size) : 0 < size.prod := by
  induction size with
  | nil => simp
  | cons n ns ih =>
    have hn : 0 < n := h n (by simp)
    have hns : AllPos ns := fun x hx => h x (by simp [hx])
    simpa using Nat.mul_pos hn (ih hns)

theorem radixValue_nil_right (subs : List Nat) : radixValue subs [] = 0 := by
  cases subs <;> rfl

/-- With column-major strides that start at `st` and do not overflow, the sum of the
wrapped terms is `st` times the mixed-radix value. -/
theorem sum_terms_eq_radixValue (size : List Nat) :
    ∀ (st : Nat) (subs : List Nat), subs.length = size.length → AllPos size →
      st * size.prod < U32 →
      ∑ i in Finset.range size.length,
          (subs.getD i 0 % size.getD i 0) * (stridesFrom st size).getD i 0
        = st * radixValue subs size := by
  induction size with
  | nil =>
    intro st subs _ _ _
    simp [radixValue_nil_right]
  | cons n ns ih =>
    intro st subs hlen hpos hlt
    match subs, hlen with
    | s :: ss, hlen =>
      have hpos1 : AllPos ns := fun x hx => hpos x (by simp [hx])
      have hP : 0 < ns.prod := prod_pos_of_allPos hpos1
      have hlt1 : st * n * ns.prod < U32 := by
        simpa [Nat.mul_assoc] using hlt
      have hstn : st * n < U32 :=
        Nat.lt_of_le_of_lt (Nat.le_mul_of_pos_right _ hP) hlt1
      have humul : umul st n = st * n := Nat.mod_eq_of_lt hstn
      simp only [List.length_cons, stridesFrom, humul, radixValue]
      rw [Finset.sum_range_succ']
      simp only [List.getD_cons_succ, List.getD_cons_zero]
      rw [ih (st * n) ss (by simpa using hlen) hpos1 hlt1]
      ring

theorem radixValue_lt (size : List Nat) :
    ∀ (subs : List Nat), subs.length = size.length → AllPos size →
      radixValue subs size < size.prod := by
  induction size with
  | nil =>
    intro subs _ _
    simp [radixValue_nil_right]
  | cons n ns ih =>
    intro subs hlen hpos
    match subs, hlen with
    | s :: ss, hlen =>
      have hn : 0 < n := hpos n (by simp)
      have hpos1 : AllPos ns := fun x hx => hpos x (by simp [hx])
      have h1 : s % n < n := Nat.mod_lt _ hn
      have h2 : radixValue ss ns < ns.prod := ih ss (by simpa using hlen) hpos1
      simp only [radixValue, List.prod_cons]
      calc s % n + n * radixValue ss ns < n + n * radixValue ss ns := by omega
        _ = n * (radixValue ss ns + 1) := by ring
        _ ≤ n * ns.prod := Nat.mul_le_mul_left _ h2

theorem validSubs_cons (N s n : Nat) (ss ns : List Nat) :
    ValidSubs (N + 1) (s :: ss) (n :: ns) ↔ s < n ∧ ValidSubs N ss ns := by
  constructor
  · intro h
    refine ⟨by simpa using h 0 (by omega), fun i hi => ?_⟩
    simpa using h (i + 1) (by omega)
  · intro h i hi
    cases i with
    | zero => simpa using h.1
    | succ j => simpa using h.2 j (by omega)

theorem radixValue_inj (size : List Nat) :
    ∀ (s t : List Nat), s.length = size.length → t.length = size.length →
      ValidSubs size.length s size → ValidSubs size.length t size →
      radixValue s size = radixValue t size → s = t := by
  induction size with
  | nil =>
    intro s t hs ht _ _ _
    rw [List.length_eq_zero.mp hs, List.length_eq_zero.mp ht]
  | cons n ns ih =>
    intro s t hs ht hvs hvt heq
    match s, hs, t, ht with
    | s0 :: ss, hs, t0 :: ts, ht =>
      rw [List.length_cons, validSubs_cons] at hvs hvt
      have hn : 0 < n := by omega
      simp only [radixValue, Nat.mod_eq_of_lt hvs.1, Nat.mod_eq_of_lt hvt.1] at heq
      have hmod := congrArg (fun x => x % n) heq
      simp only [Nat.add_mul_mod_self_left, Nat.mod_eq_of_lt hvs.1,
        Nat.mod_eq_of_lt hvt.1] at hmod
      have hrest : radixValue ss ns = radixValue ts ns := by
        have h3 : n * radixValue ss ns = n * radixValue ts ns := by omega
        exact Nat.eq_of_mul_eq_mul_left hn h3
      rw [hmod, ih ss ts (by simpa using hs) (by simpa using ht) hvs.2 hvt.2 hrest]

theorem offsetToSubs_length (size : List Nat) :
    ∀ off, (offsetToSubs size off).length = size.length := by
  induction size with
  | nil => intro off; rfl
  | cons n ns ih => intro off; simp [offsetToSubs, ih]

theorem offsetToSubs_valid (size : List Nat) :
    ∀ off, AllPos size → ValidSubs size.length (offsetToSubs size off) size := by
  induction size with
  | nil =>
    intro off _ i hi
    simp at hi
  | cons n ns ih =>
    intro off hpos
    have hn : 0 < n := hpos n (by simp)
    have hpos1 : AllPos ns := fun x hx => hpos x (by simp [hx])
    rw [List.length_cons, offsetToSubs, validSubs_cons]
    exact ⟨Nat.mod_lt _ hn, ih (off / n) hpos1⟩

theorem radixValue_offsetToSubs (size : List Nat) :
    ∀ off, AllPos size → off < size.prod → radixValue (offsetToSubs size off) size = off := by
  induction size with
  | nil =>
    intro off _ hlt
    simp at hlt
    simp [offsetToSubs, radixValue, hlt]
  | cons n ns ih =>
    intro off hpos hlt
    have hpos1 : AllPos ns := fun x hx => hpos x (by simp [hx])
    have hdiv : off / n < ns.prod := by
      apply Nat.div_lt_of_lt_mul
      simpa using hlt
    simp only [offsetToSubs, radixValue, Nat.mod_mod, ih (off / n) hpos1 hdiv]
    exact Nat.mod_add_div off n

/-- Without overflow of the element count, the generic loop run for `k ≤ N` iterations
holds the exact sum of the first `k` wrapped terms, which is below the element count. -/
theorem sub2indLoop_go_exact (N : Nat) (subs size : List Nat) (hsubs : subs.length = N)
    (hsize : size.length = N) (hpos : AllPos size) (hnumel : size.prod < U32) (k : Nat)
    (hk : k ≤ N) :
    sub2indLoop.go subs size (columnMajor size) k 0 0
        = some (∑ i in Finset.range k,
            (subs.getD i 0 % size.getD i 0) * (columnMajor size).getD i 0)
      ∧ ∑ i in Finset.range k,
            (subs.getD i 0 % size.getD i 0) * (columnMajor size).getD i 0 < size.prod := by
  have htotal := sum_terms_eq_radixValue size 1 subs (by omega) hpos (by simpa using hnumel)
  have hlt := radixValue_lt size subs (by omega) hpos
  rw [Nat.one_mul, hsize] at htotal
  have hle : ∑ i in Finset.range k,
        (subs.getD i 0 % size.getD i 0) * (columnMajor size).getD i 0
      ≤ ∑ i in Finset.range N,
        (subs.getD i 0 % size.getD i 0) * (columnMajor size).getD i 0 :=
    Finset.sum_le_sum_of_subset (Finset.range_mono hk)
  have hbound : ∑ i in Finset.range k,
        (subs.getD i 0 % size.getD i 0) * (columnMajor size).getD i 0 < size.prod := by
    have h1 : ∑ i in Finset.range N,
        (subs.getD i 0 % size.getD i 0) * (columnMajor size).getD i 0 = radixValue subs size :=
      htotal
    omega
  refine ⟨?_, hbound⟩
  have h := sub2indLoop_go_eq subs size (columnMajor size) k 0 0 (by omega) (by omega)
    (by rw [columnMajor_length]; omega) (allPos_ne_zero hpos) (by decide)
  simp only [Nat.zero_add] at h
  rw [h, Nat.mod_eq_of_lt (Nat.lt_trans hbound hnumel)]

/-- On valid subscripts and without overflow of the element count, the offset is the
mixed-radix value of the subscripts, for every rank. -/
theorem sub2ind_eq_radixValue (N : Nat) (subs size : List Nat) (hsubs : subs.length = N)
    (hsize : size.length = N) (hpos : AllPos size) (hnumel : size.prod < U32)
    (hvalid : ValidSubs N subs size) :
    sub2ind N subs size (columnMajor size) = some (radixValue subs size) := by
  have hlt := radixValue_lt size subs (by omega) hpos
  match N, subs, hsubs, size, hsize, hpos, hnumel, hvalid, hlt with
  | 0, [], _, [], _, _, _, _, _ => rfl
  | 1, [s0], _, [n0], _, _, _, hvalid, _ =>
    have hs0 : s0 < n0 := by simpa using hvalid 0 (by omega)
    simp [sub2ind, radixValue, Nat.mod_eq_of_lt hs0]
  | 2, [s0, s1], _, [n0, n1], _, _, hnumel, hvalid, hlt =>
    have hs0 : s0 < n0 := by simpa using hvalid 0 (by omega)
    have hs1 : s1 < n1 := by simpa using hvalid 1 (by omega)
    simp only [radixValue, Nat.mod_eq_of_lt hs0, Nat.mod_eq_of_lt hs1, Nat.mul_zero,
      Nat.add_zero] at hlt ⊢
    have hb : s0 + n0 * s1 < U32 := Nat.lt_trans hlt hnumel
    have hb1 : s1 * n0 < U32 := by
      rw [Nat.mul_comm]
      omega
    simp only [sub2ind, List.getElem?_cons_zero, List.getElem?_cons_succ, uadd, umul,
      Nat.mod_eq_of_lt hb1]
    rw [Nat.mul_comm s1 n0, Nat.mod_eq_of_lt hb]
  | m + 3, subs, hsubs, size, hsize, hpos, hnumel, _, _ =>
    have h := sub2indLoop_go_exact (m + 3) subs size hsubs hsize hpos hnumel (m + 3)
      (Nat.le_refl _)
    have htotal := sum_terms_eq_radixValue size 1 subs (by omega) hpos
      (by simpa using hnumel)
    rw [Nat.one_mul, hsize] at htotal
    simp only [sub2ind, sub2indLoop, h.1]
    exact congrArg some htotal

/-! ## Claims -/

/-- C1, the code at rank 1 and rank 2. With extents `[5]` (positive, strides `[1]`,
5 elements) and the subscript `7`, the specialisation `sub2ind<1>` returns 7 unwrapped,
so `a[subs]` designates the cell at offset 7, not below `numel = 5`; with extents
`[3,4]` (12 elements) and the subscripts `(0, 9)`, `sub2ind<2>` returns 27. The generic
loop instantiated at the same ranks wraps the same subscripts to offsets 2 and 3. -/
theorem sub2ind_fast_path_unwrapped :
    AllPos [5] ∧ columnMajor [5] = [1] ∧ AllU32 [7]
      ∧ sub2ind 1 [7] [5] (columnMajor [5]) = some 7
      ∧ (bound 64 [5]).indexSubs 1 [7] = some (Ref.elem (Ptr.addr 64) 7)
      ∧ (bound 64 [5]).numel = 5 ∧ [5].prod = 5 ∧ ¬ (7 < [5].prod)
      ∧ sub2indLoop 1 [7] [5] (columnMajor [5]) = some 2
      ∧ AllPos [3, 4] ∧ columnMajor [3, 4] = [1, 3]
      ∧ sub2ind 2 [0, 9] [3, 4] (columnMajor [3, 4]) = some 27
      ∧ [3, 4].prod = 12 ∧ ¬ (27 < [3, 4].prod)
      ∧ sub2indLoop 2 [0, 9] [3, 4] (columnMajor [3, 4]) = some 3 := by
  decide

/-- C2, the code at the scenario of the specification. On an array of rank 1 bound to a
buffer of 5 elements, `a[7]` designates the cell at offset `7 mod N = 7 mod 1 = 0`, where
`7 mod numel = 2`; on a rank-1 array every flat index designates cell 0. -/
theorem index_wraps_by_rank :
    (bound 64 [5]).numel = 5
      ∧ (bound 64 [5]).index 1 7 = some (Ref.elem (Ptr.addr 64) 0)
      ∧ 7 % (bound 64 [5]).numel = 2
      ∧ (∀ n, (bound 64 [5]).index 1 n = some (Ref.elem (Ptr.addr 64) 0))
      ∧ (bound 64 [2, 3]).numel = 6
      ∧ (bound 64 [2, 3]).index 2 5 = some (Ref.elem (Ptr.addr 64) 1) := by
  refine ⟨by decide, by decide, by decide, ?_, by decide, by decide⟩
  intro n
  simp [ndArray.index, MEX_ARRAY_PROTECT, umod, Nat.mod_one, ndArray.data, bound]

/-- C3, the code on empty arrays. On the empty array of rank 1 the three access
operators return the cell `p[0]` for the null pointer `p`, which is not the sentinel
that `fake_array<T>::operator[]` returns; on the empty array of rank 3 the subscript and
coordinate operators take a remainder by a zero extent and have no defined result. -/
theorem empty_access_not_guarded :
    (emptyArray 1).empty = true ∧ (emptyArray 1).numel = 0
      ∧ (emptyArray 1).index 1 0 = some (Ref.elem Ptr.null 0)
      ∧ (emptyArray 1).indexSubs 1 [0] = some (Ref.elem Ptr.null 0)
      ∧ (emptyArray 1).call 1 0 [] = some (Ref.elem Ptr.null 0)
      ∧ Ref.elem Ptr.null 0 ≠ Ref.sentinel
      ∧ fake_array_index 0 = Ref.sentinel
      ∧ (emptyArray 3).index 3 4 = some (Ref.elem Ptr.null 1)
      ∧ (emptyArray 3).indexSubs 3 [0, 0, 0] = none
      ∧ (emptyArray 3).call 3 0 [0, 0] = none := by
  decide

/-- C4. Coordinate-call access and subscript-array access designate the same element:
for an array of rank `N` (at least 1, as the tuple has a first coordinate) with positive
extents and column-major strides, and a valid coordinate tuple `(c0, rest...)`, both
`a(c0, rest...)` and `a[subs]` with `subs = [c0, rest...]` are defined and yield the same
reference. -/
theorem call_eq_indexSubs (N : Nat) (a : ndArray) (c0 : Nat) (rest : List Nat)
    (hlen : (c0 :: rest).length = N) (hsize : a.m_size.length = N)
    (hpos : AllPos a.m_size) (hu : AllU32 a.m_size)
    (hst : a.m_strides = columnMajor a.m_size)
    (hvalid : ValidSubs N (c0 :: rest) a.m_size) :
    ∃ r, a.call N c0 rest = some r ∧ a.indexSubs N (c0 :: rest) = some r := by
  have hstl : a.m_strides.length = N := by rw [hst, columnMajor_length, hsize]
  have hrest : rest.length = N - 1 := by simp at hlen; omega
  have hN : 1 ≤ N := by simp at hlen; omega
  refine ⟨_, ndArray_call_offset N a c0 rest (by omega) hN hsize hstl hpos, ?_⟩
  obtain ⟨numel, size, strides, data⟩ := a
  simp only at hsize hpos hu hst hvalid hstl ⊢
  subst hst
  match size, hsize, hvalid, hpos, hu, hstl with
  | [], hsize, _, _, _, _ => simp at hsize; omega
  | n0 :: size1, hsize, hvalid, hpos, hu, hstl =>
    have hc0 : c0 < n0 := by simpa using hvalid 0 (by omega)
    have hn0 : n0 < U32 := hu n0 (by simp)
    match N, hN, hrest, hsize, hvalid, hstl with
    | 1, _, hrest, _, _, _ =>
      simp only [ndArray.indexSubs, sub2ind, Nat.sub_self, Finset.range_zero,
        Finset.sum_empty, Nat.add_zero, List.getElem?_cons_zero]
      rw [Nat.mod_eq_of_lt (Nat.lt_trans hc0 hn0)]
    | 2, _, hrest, hsize, hvalid, _ =>
      match rest, hrest, size1, hsize with
      | [c1], _, n1 :: size2, _ =>
        have hc1 : c1 < n1 := by simpa using hvalid 1 (by omega)
        simp only [ndArray.indexSubs, sub2ind, columnMajor, stridesFrom, uadd, umul, U32]
          at hn0 ⊢
        simp [Finset.sum_range_one, Nat.mod_eq_of_lt hc1, Nat.mod_eq_of_lt hn0, Nat.mul_comm]
    | m + 3, _, hrest, hsize, hvalid, hstl =>
      have h := sub2indLoop_go_eq (c0 :: rest) (n0 :: size1) (columnMajor (n0 :: size1))
        (m + 3) 0 0 (by simp; omega) (by omega) (by omega) (allPos_ne_zero hpos) (by decide)
      simp only [ndArray.indexSubs, sub2ind, sub2indLoop, h, Nat.zero_add]
      rw [Finset.sum_range_succ']
      simp only [columnMajor, stridesFrom, List.getD_cons_succ, List.getD_cons_zero,
        Nat.mod_eq_of_lt hc0, Nat.mul_one, Nat.add_sub_cancel, Nat.add_comm 1]
      rw [Nat.add_comm]
      rfl

/-- Witness of C4 at rank 3: the array bound with extents `[2,3,4]` and the valid
coordinates `(1, 2, 3)`; both accesses reach the cell at offset `1 + 2*2 + 3*6 = 23`. -/
theorem call_eq_indexSubs_witness :
    (∃ r, (bound 64 [2, 3, 4]).call 3 1 [2, 3] = some r
        ∧ (bound 64 [2, 3, 4]).indexSubs 3 [1, 2, 3] = some r)
      ∧ (bound 64 [2, 3, 4]).call 3 1 [2, 3] = some (Ref.elem (Ptr.addr 64) 23) :=
  ⟨call_eq_indexSubs 3 (bound 64 [2, 3, 4]) 1 [2, 3] rfl rfl (by decide) (by decide) rfl
    (by decide), by decide⟩

/-- C5. For `N ∈ {0, 1, 2}`, positive extents, column-major strides and a valid subscript
tuple, the specialisation `sub2ind<N>` and the generic loop of the primary template
instantiated at `N` are both defined and return the same offset; with extents `[3,4]`
the subscript `(2,1)` gives offset 5 on either path. -/
theorem sub2ind_specialisations_agree (N : Nat) (subs size : List Nat) (hN : N ≤ 2)
    (hsubs : subs.length = N) (hsize : size.length = N) (hpos : AllPos size)
    (hu : AllU32 size) (hvalid : ValidSubs N subs size) :
    (∃ off, sub2ind N subs size (columnMajor size) = some off
        ∧ sub2indLoop N subs size (columnMajor size) = some off)
      ∧ sub2ind 2 [2, 1] [3, 4] (columnMajor [3, 4]) = some 5
      ∧ sub2indLoop 2 [2, 1] [3, 4] (columnMajor [3, 4]) = some 5 := by
  refine ⟨?_, by decide, by decide⟩
  match N, hN, subs, hsubs, size, hsize, hpos, hu, hvalid with
  | 0, _, [], _, [], _, _, _, _ => exact ⟨0, rfl, rfl⟩
  | 1, _, [s0], _, [n0], _, hpos, hu, hvalid =>
    have hs0 : s0 < n0 := by simpa using hvalid 0 (by omega)
    have hn0 : n0 < U32 := hu n0 (by simp)
    have hnz : n0 ≠ 0 := by omega
    refine ⟨s0, rfl, ?_⟩
    simp only [sub2indLoop, sub2indLoop.go, columnMajor, stridesFrom, List.getElem?_cons_zero,
      umod_of_ne_zero _ _ hnz, uadd, umul, Nat.mod_eq_of_lt hs0, Nat.mul_one, Nat.zero_add,
      Nat.mod_mod, Nat.mod_eq_of_lt (Nat.lt_trans hs0 hn0)]
  | 2, _, [s0, s1], _, [n0, n1], _, hpos, hu, hvalid =>
    have hs0 : s0 < n0 := by simpa using hvalid 0 (by omega)
    have hs1 : s1 < n1 := by simpa using hvalid 1 (by omega)
    have hn0 : n0 < U32 := hu n0 (by simp)
    have hnz0 : n0 ≠ 0 := by omega
    have hnz1 : n1 ≠ 0 := by omega
    refine ⟨uadd s0 (umul s1 n0), rfl, ?_⟩
    simp only [sub2indLoop, sub2indLoop.go, columnMajor, stridesFrom, List.getElem?_cons_zero,
      List.getElem?_cons_succ, umod_of_ne_zero _ _ hnz0, umod_of_ne_zero _ _ hnz1, uadd, umul,
      Nat.mod_eq_of_lt hs0, Nat.mod_eq_of_lt hs1, Nat.mul_one, Nat.one_mul, Nat.zero_add,
      Nat.mod_mod, Nat.mod_eq_of_lt (Nat.lt_trans hs0 hn0), Nat.mod_eq_of_lt hn0]

/-- Witness of C5 at rank 2: extents `[3,4]` and the valid subscript `(2,1)`. -/
theorem sub2ind_specialisations_agree_witness :
    (∃ off, sub2ind 2 [2, 1] [3, 4] (columnMajor [3, 4]) = some off
        ∧ sub2indLoop 2 [2, 1] [3, 4] (columnMajor [3, 4]) = some off)
      ∧ sub2ind 2 [2, 1] [3, 4] (columnMajor [3, 4]) = some 5
      ∧ sub2indLoop 2 [2, 1] [3, 4] (columnMajor [3, 4]) = some 5 :=
  sub2ind_specialisations_agree 2 [2, 1] [3, 4] (by decide) rfl rfl (by decide) (by decide)
    (by decide)

/-- C6. For every rank `N ≥ 3` (no specialisation applies) and arrays `subs`, `size`,
`strides` of length `N` with every extent non-zero, the call `sub2ind<N>(subs, size,
strides)` returns the sum over `i < N` of `(subs[i] mod size[i]) * strides[i]`, reduced
modulo `2^32`. -/
theorem sub2ind_generic_sum (N : Nat) (subs size strides : List Nat) (hN : 3 ≤ N)
    (hsubs : subs.length = N) (hsize : size.length = N) (hstrides : strides.length = N)
    (hnz : ∀ n ∈ size, n ≠ 0) :
    sub2ind N subs size strides
      = some ((∑ i in Finset.range N,
          (subs.getD i 0 % size.getD i 0) * strides.getD i 0) % U32) := by
  obtain ⟨m, rfl⟩ : ∃ m, N = m + 3 := ⟨N - 3, by omega⟩
  have h := sub2indLoop_go_eq subs size strides (m + 3) 0 0 (by omega) (by omega) (by omega)
    hnz (by decide)
  simpa [sub2ind, sub2indLoop] using h

/-- Witness of C6 at rank 3: subscripts `[5,7,1]`, extents `[2,3,4]`, strides
`[1,2,6]`; the value is `1*1 + 1*2 + 1*6 = 9`. -/
theorem sub2ind_generic_sum_witness :
    sub2ind 3 [5, 7, 1] [2, 3, 4] [1, 2, 6]
        = some ((∑ i in Finset.range 3,
            ([5, 7, 1].getD i 0 % [2, 3, 4].getD i 0) * [1, 2, 6].getD i 0) % U32)
      ∧ sub2ind 3 [5, 7, 1] [2, 3, 4] [1, 2, 6] = some 9 :=
  ⟨sub2ind_generic_sum 3 [5, 7, 1] [2, 3, 4] [1, 2, 6] (by decide) rfl rfl rfl (by decide),
    by decide⟩

/-- C7, the code at rank 3 and rank 1. On the array bound with extents `[2,2,2]`
(8 elements) the call `a(9, 0, 0)` designates the cell at offset 9: the first coordinate
is added without a remainder by `size[0]`. The subscript operator on the same
coordinates wraps to offset 1. On the rank-1 array of 5 elements `a(7)` designates the
cell at offset 7. -/
theorem call_first_coordinate_unwrapped :
    AllPos [2, 2, 2] ∧ (bound 64 [2, 2, 2]).m_strides = [1, 2, 4]
      ∧ (bound 64 [2, 2, 2]).numel = 8
      ∧ (bound 64 [2, 2, 2]).call 3 9 [0, 0] = some (Ref.elem (Ptr.addr 64) 9)
      ∧ ¬ (9 < (bound 64 [2, 2, 2]).numel)
      ∧ (bound 64 [2, 2, 2]).indexSubs 3 [9, 0, 0] = some (Ref.elem (Ptr.addr 64) 1)
      ∧ (bound 64 [5]).call 1 7 [] = some (Ref.elem (Ptr.addr 64) 7)
      ∧ ¬ (7 < (bound 64 [5]).numel) := by
  decide

/-- C8. For every rank `N ≥ 1` and every dimension index `n`, the lookup index `n mod N`
lies below `N`, inside both metadata arrays, and `size(n)`, `stride(n)` return the
cells `m_size[n mod N]`, `m_strides[n mod N]`. -/
theorem size_stride_wrap (N : Nat) (a : ndArray) (n : Nat) (hN : 1 ≤ N)
    (hsize : a.m_size.length = N) (hstrides : a.m_strides.length = N) :
    n % N < N ∧
      ∃ (hs : n % N < a.m_size.length) (ht : n % N < a.m_strides.length),
        a.size N n = some (a.m_size.get ⟨n % N, hs⟩)
          ∧ a.stride N n = some (a.m_strides.get ⟨n % N, ht⟩) := by
  have hlt : n % N < N := Nat.mod_lt _ hN
  have hnz : N ≠ 0 := by omega
  refine ⟨hlt, by omega, by omega, ?_, ?_⟩
  · simp only [ndArray.size, umod_of_ne_zero _ _ hnz]
    exact List.getElem?_eq_getElem _
  · simp only [ndArray.stride, umod_of_ne_zero _ _ hnz]
    exact List.getElem?_eq_getElem _

/-- Witness of C8: rank 3, extents `[2,3,4]`, dimension index 7, which wraps to
dimension 1. -/
theorem size_stride_wrap_witness :
    (7 % 3 < 3 ∧
      ∃ (hs : 7 % 3 < (bound 64 [2, 3, 4]).m_size.length)
        (ht : 7 % 3 < (bound 64 [2, 3, 4]).m_strides.length),
        (bound 64 [2, 3, 4]).size 3 7 = some ((bound 64 [2, 3, 4]).m_size.get ⟨7 % 3, hs⟩)
          ∧ (bound 64 [2, 3, 4]).stride 3 7
              = some ((bound 64 [2, 3, 4]).m_strides.get ⟨7 % 3, ht⟩))
      ∧ (bound 64 [2, 3, 4]).size 3 7 = some 3 ∧ (bound 64 [2, 3, 4]).stride 3 7 = some 2 :=
  ⟨size_stride_wrap 3 (bound 64 [2, 3, 4]) 7 (by decide) rfl rfl, by decide, by decide⟩

/-- C9. For each of the eight supported scalar types, the `const`-qualified type has the
same display name and the same class tag as the unqualified type. -/
theorem mx_type_const_same (s : Scalar) :
    mx_type_name (CType.const s) = mx_type_name (CType.plain s)
      ∧ mx_type_id (CType.const s) = mx_type_id (CType.plain s) := by
  cases s <;> exact ⟨rfl, rfl⟩

/-- C10. A call of the release action `no_delete<T>::operator()` leaves the contents of
every cell, the allocation status of every address and the caller's pointer as they
were; only its own by-value parameter is overwritten (with null). -/
theorem no_delete_frame (mem : Memory) (p : Ptr) :
    (no_delete_call mem p).mem.contents = mem.contents
      ∧ (no_delete_call mem p).mem.allocated = mem.allocated
      ∧ (no_delete_call mem p).caller = p
      ∧ (no_delete_call mem p).ptr = Ptr.null :=
  ⟨rfl, rfl, rfl, rfl⟩

/-- C11. For every array (a null buffer only with `numel = 0`), `begin()` is `data()`,
`end()` is defined and is `begin() + numel()`, the range from `begin()` to `end()` holds
exactly `numel()` cells, and it is empty (`end() = begin()`) when `numel() = 0`. -/
theorem begin_end_range (a : ndArray) (hinv : a.m_data = Ptr.null → a.m_numel = 0) :
    a.begin = a.data
      ∧ ∃ e, a.end_ = some e ∧ Ptr.add a.begin a.numel = some e
          ∧ Ptr.diff e a.begin = some (a.numel : Int)
          ∧ (a.numel = 0 → e = a.begin) := by
  refine ⟨rfl, ?_⟩
  obtain ⟨numel, size, strides, data⟩ := a
  simp only [ndArray.begin, ndArray.end_, ndArray.data, ndArray.numel] at hinv ⊢
  cases data with
  | null =>
    have h0 : numel = 0 := hinv rfl
    subst h0
    exact ⟨Ptr.null, by simp [Ptr.add], by simp [Ptr.add], by simp [Ptr.diff], by simp⟩
  | addr b =>
    refine ⟨Ptr.addr (b + numel), by simp [Ptr.add], by simp [Ptr.add], by simp [Ptr.diff],
      ?_⟩
    intro h0
    simp [h0]

/-- Witness of C11: the array bound at address 64 with extents `[2,3,4]` (24 cells);
`end()` is the address 88. -/
theorem begin_end_range_witness :
    ((bound 64 [2, 3, 4]).begin = (bound 64 [2, 3, 4]).data
      ∧ ∃ e, (bound 64 [2, 3, 4]).end_ = some e
          ∧ Ptr.add (bound 64 [2, 3, 4]).begin (bound 64 [2, 3, 4]).numel = some e
          ∧ Ptr.diff e (bound 64 [2, 3, 4]).begin = some ((bound 64 [2, 3, 4]).numel : Int)
          ∧ ((bound 64 [2, 3, 4]).numel = 0 → e = (bound 64 [2, 3, 4]).begin))
      ∧ (bound 64 [2, 3, 4]).end_ = some (Ptr.addr 88)
      ∧ (emptyArray 3).end_ = some Ptr.null :=
  ⟨begin_end_range (bound 64 [2, 3, 4]) (by decide), by decide, by decide⟩

/-- C12, as amended. For every rank `N ≥ 1`, metadata arrays of `N` cells whose extents
in the dimensions `1, ..., N-1` are non-zero, and every argument list `xs ++ extra` whose
first `N-1` arguments are `xs`: the call `sub2ind<N>(vl, size, strides)` returns the sum
of `(xs[j] mod size[j+1]) * strides[j+1]` over `j < N-1` modulo `2^32` (argument `j+1`
goes with dimension `j+1`, dimension 0 is not used), leaves exactly `extra` unread, and
closes the list; `extra` does not enter the value. -/
theorem sub2indVa_consumes (N : Nat) (xs extra size strides : List Nat) (hN : 1 ≤ N)
    (hxs : xs.length = N - 1) (hsize : size.length = N) (hstrides : strides.length = N)
    (hnz : ∀ i, 1 ≤ i → i < N → size.getD i 0 ≠ 0) :
    sub2indVa N (va_start (xs ++ extra)) size strides
      = some ((∑ j in Finset.range (N - 1),
            (xs.getD j 0 % size.getD (j + 1) 0) * strides.getD (j + 1) 0) % U32,
          { args := extra, live := false }) := by
  have h := sub2indVa_go_visited size strides (N - 1) 1 0 (xs ++ extra)
    (by simp; omega) (by omega) (by omega) (fun j h1 h2 => hnz j h1 (by omega)) (by decide)
  simp only [sub2indVa, va_start, h, va_end, Nat.zero_add]
  have hdrop : (xs ++ extra).drop (N - 1) = extra := by
    rw [← hxs]
    exact List.drop_left xs extra
  have hsum : ∀ j ∈ Finset.range (N - 1),
      ((xs ++ extra).getD j 0 % size.getD (1 + j) 0) * strides.getD (1 + j) 0
        = (xs.getD j 0 % size.getD (j + 1) 0) * strides.getD (j + 1) 0 := by
    intro j hj
    have hj1 : j < xs.length := by
      rw [hxs]
      exact Finset.mem_range.mp hj
    rw [List.getD_append _ _ _ _ hj1, Nat.add_comm 1 j]
  rw [hdrop, Finset.sum_congr rfl hsum]

/-- Witness of C12 at rank 3: extents `[2,3,4]`, strides `[1,2,6]`, arguments `7, 9` and
two further arguments `100, 200`; the value is `(7 mod 3)*2 + (9 mod 4)*6 = 8`. -/
theorem sub2indVa_consumes_witness :
    sub2indVa 3 (va_start ([7, 9] ++ [100, 200])) [2, 3, 4] [1, 2, 6]
        = some ((∑ j in Finset.range (3 - 1),
              ([7, 9].getD j 0 % [2, 3, 4].getD (j + 1) 0) * [1, 2, 6].getD (j + 1) 0) % U32,
            { args := [100, 200], live := false })
      ∧ sub2indVa 3 (va_start [7, 9, 100, 200]) [2, 3, 4] [1, 2, 6]
          = some (8, { args := [100, 200], live := false }) :=
  ⟨sub2indVa_consumes 3 [7, 9] [100, 200] [2, 3, 4] [1, 2, 6] (by decide) rfl rfl rfl
    (by decide), by decide⟩

/-- C12 as stated, without a condition on the extents, fails. On the metadata of the
empty array of rank 3 (extents `[0,0,0]`) and the two arguments `7, 1`, the first
iteration reads the argument 7 and takes its remainder by the extent 0, which is
undefined: the call has no result, the second argument is never read and `va_end` is
never reached. The same happens on the extents `[2,0,4]` with strides `[1,2,0]`. -/
theorem sub2indVa_zero_extent_undefined :
    [7, 1].length = 3 - 1 ∧ (emptyArray 3).m_size = [0, 0, 0]
      ∧ (emptyArray 3).m_size.length = 3 ∧ (emptyArray 3).m_strides.length = 3
      ∧ va_arg (va_start ([7, 1] ++ [])) = some (7, { args := [1], live := true })
      ∧ umod 7 ((emptyArray 3).m_size.getD 1 0) = none
      ∧ sub2indVa 3 (va_start ([7, 1] ++ [])) (emptyArray 3).m_size (emptyArray 3).m_strides
          = none
      ∧ (¬ ∃ v, sub2indVa 3 (va_start ([7, 1] ++ [])) (emptyArray 3).m_size
          (emptyArray 3).m_strides = some (v, { args := [], live := false }))
      ∧ sub2indVa 3 (va_start ([7, 1] ++ [])) [2, 0, 4] [1, 2, 0] = none
      ∧ (emptyArray 3).call 3 0 [7, 1] = none := by
  refine ⟨by decide, by decide, by decide, by decide, by decide, by decide, by decide, ?_,
    by decide, by decide⟩
  rintro ⟨v, hv⟩
  have hnone : sub2indVa 3 (va_start ([7, 1] ++ [])) (emptyArray 3).m_size
      (emptyArray 3).m_strides = none := by decide
  rw [hnone] at hv
  cases hv

/-- C13. For every element type `T`, all objects `f`, `g` of type `fake_array<T>` and all
indices `n`, `m`, the expressions `f[n]` and `g[m]` designate the one location
`singleton<T>::instance`; that location holds `T()` after static initialisation, and a
value written through `f[n]` is the value read through `g[m]`. -/
theorem fake_array_shared (T : Type) [Inhabited T] (f g : fake_array) (n m : Nat)
    (cells : Ptr → Nat → T) (s : Store T) (v : T) :
    f.get n = Ref.sentinel ∧ g.get m = Ref.sentinel ∧ f.get n = g.get m
      ∧ (Store.initial cells).read (f.get n) = default
      ∧ ((s.write (f.get n) v).read (g.get m)) = v := by
  refine ⟨rfl, rfl, rfl, rfl, ?_⟩
  simp [Store.read, Store.write, fake_array.get, fake_array_index]

/-- C14. For positive extents `size` of rank `N` whose product (the element count) is
below `2^32`, with column-major strides: every valid subscript tuple has a defined
offset below the element count, two valid tuples with the same offset are equal, and
every offset below the element count is the offset of a valid tuple. The statement also
covers rank 0; the specialisations for ranks 1 and 2 are included. -/
theorem sub2ind_bijective (N : Nat) (size : List Nat) (hsize : size.length = N)
    (hpos : AllPos size) (hnumel : size.prod < U32) :
    (∀ subs, subs.length = N → ValidSubs N subs size →
        ∃ off, sub2ind N subs size (columnMajor size) = some off ∧ off < size.prod)
      ∧ (∀ s t, s.length = N → t.length = N → ValidSubs N s size → ValidSubs N t size →
        sub2ind N s size (columnMajor size) = sub2ind N t size (columnMajor size) → s = t)
      ∧ (∀ off, off < size.prod →
        ∃ subs, subs.length = N ∧ ValidSubs N subs size
          ∧ sub2ind N subs size (columnMajor size) = some off) := by
  refine ⟨?_, ?_, ?_⟩
  · intro subs hsubs hvalid
    exact ⟨radixValue subs size,
      sub2ind_eq_radixValue N subs size hsubs hsize hpos hnumel hvalid,
      radixValue_lt size subs (by omega) hpos⟩
  · intro s t hs ht hvs hvt heq
    rw [sub2ind_eq_radixValue N s size hs hsize hpos hnumel hvs,
      sub2ind_eq_radixValue N t size ht hsize hpos hnumel hvt] at heq
    subst hsize
    exact radixValue_inj size s t hs ht hvs hvt (Option.some.inj heq)
  · intro off hoff
    subst hsize
    refine ⟨offsetToSubs size off, offsetToSubs_length size off,
      offsetToSubs_valid size off hpos, ?_⟩
    rw [sub2ind_eq_radixValue size.length (offsetToSubs size off) size
      (offsetToSubs_length size off) rfl hpos hnumel (offsetToSubs_valid size off hpos),
      radixValue_offsetToSubs size off hpos hoff]

/-- Witness of C14 at rank 3 with extents `[2,3,4]` (24 elements); the offset 23 is
reached by the valid tuple `(1, 2, 3)`. -/
theorem sub2ind_bijective_witness :
    ((∀ subs, subs.length = 3 → ValidSubs 3 subs [2, 3, 4] →
        ∃ off, sub2ind 3 subs [2, 3, 4] (columnMajor [2, 3, 4]) = some off
          ∧ off < [2, 3, 4].prod)
      ∧ (∀ s t, s.length = 3 → t.length = 3 → ValidSubs 3 s [2, 3, 4] →
        ValidSubs 3 t [2, 3, 4] →
        sub2ind 3 s [2, 3, 4] (columnMajor [2, 3, 4])
          = sub2ind 3 t [2, 3, 4] (columnMajor [2, 3, 4]) → s = t)
      ∧ (∀ off, off < [2, 3, 4].prod →
        ∃ subs, subs.length = 3 ∧ ValidSubs 3 subs [2, 3, 4]
          ∧ sub2ind 3 subs [2, 3, 4] (columnMajor [2, 3, 4]) = some off))
      ∧ sub2ind 3 [1, 2, 3] [2, 3, 4] (columnMajor [2, 3, 4]) = some 23 :=
  ⟨sub2ind_bijective 3 [2, 3, 4] rfl (by decide) (by decide), by decide⟩

/-- C15. For every rank `N ≥ 3`, positive extents whose product (the element count) is
below `2^32`, column-major strides and arbitrary subscripts: every product
`(subs[i] mod size[i]) * strides[i]` is below the element count; after each number
`k ≤ N` of iterations the accumulator of the generic loop is the exact sum of the first
`k` products, below the element count; and the returned value is the exact sum of all
`N` products, below the element count. -/
theorem sub2ind_no_wrap (N : Nat) (subs size : List Nat) (hN : 3 ≤ N)
    (hsubs : subs.length = N) (hsize : size.length = N) (hpos : AllPos size)
    (hnumel : size.prod < U32) :
    (∀ i, i < N →
        (subs.getD i 0 % size.getD i 0) * (columnMajor size).getD i 0 < size.prod)
      ∧ (∀ k, k ≤ N →
        sub2indLoop.go subs size (columnMajor size) k 0 0
            = some (∑ i in Finset.range k,
                (subs.getD i 0 % size.getD i 0) * (columnMajor size).getD i 0)
          ∧ ∑ i in Finset.range k,
                (subs.getD i 0 % size.getD i 0) * (columnMajor size).getD i 0 < size.prod)
      ∧ sub2ind N subs size (columnMajor size)
          = some (∑ i in Finset.range N,
              (subs.getD i 0 % size.getD i 0) * (columnMajor size).getD i 0)
      ∧ ∑ i in Finset.range N,
            (subs.getD i 0 % size.getD i 0) * (columnMajor size).getD i 0 < size.prod := by
  have hall := sub2indLoop_go_exact N subs size hsubs hsize hpos hnumel
  have hfull := hall N (Nat.le_refl N)
  refine ⟨?_, hall, ?_, hfull.2⟩
  · intro i hi
    have hle : (subs.getD i 0 % size.getD i 0) * (columnMajor size).getD i 0
        ≤ ∑ j in Finset.range N,
            (subs.getD j 0 % size.getD j 0) * (columnMajor size).getD j 0 :=
      Finset.single_le_sum
        (f := fun j => (subs.getD j 0 % size.getD j 0) * (columnMajor size).getD j 0)
        (fun _ _ => Nat.zero_le _) (Finset.mem_range.mpr hi)
    exact Nat.lt_of_le_of_lt hle hfull.2
  · obtain ⟨m, rfl⟩ : ∃ m, N = m + 3 := ⟨N - 3, by omega⟩
    simpa [sub2ind, sub2indLoop] using hfull.1

/-- Witness of C15 at rank 3: extents `[2,3,4]` (24 elements) and the subscripts
`(5, 7, 4294967295)`, which wrap to `(1, 1, 3)`; the offset is `1 + 2 + 18 = 21`. -/
theorem sub2ind_no_wrap_witness :
    ((∀ i, i < 3 →
        ([5, 7, 4294967295].getD i 0 % [2, 3, 4].getD i 0)
          * (columnMajor [2, 3, 4]).getD i 0 < [2, 3, 4].prod)
      ∧ (∀ k, k ≤ 3 →
        sub2indLoop.go [5, 7, 4294967295] [2, 3, 4] (columnMajor [2, 3, 4]) k 0 0
            = some (∑ i in Finset.range k,
                ([5, 7, 4294967295].getD i 0 % [2, 3, 4].getD i 0)
                  * (columnMajor [2, 3, 4]).getD i 0)
          ∧ ∑ i in Finset.range k,
                ([5, 7, 4294967295].getD i 0 % [2, 3, 4].getD i 0)
                  * (columnMajor [2, 3, 4]).getD i 0 < [2, 3, 4].prod)
      ∧ sub2ind 3 [5, 7, 4294967295] [2, 3, 4] (columnMajor [2, 3, 4])
          = some (∑ i in Finset.range 3,
              ([5, 7, 4294967295].getD i 0 % [2, 3, 4].getD i 0)
                * (columnMajor [2, 3, 4]).getD i 0)
      ∧ ∑ i in Finset.range 3,
            ([5, 7, 4294967295].getD i 0 % [2, 3, 4].getD i 0)
              * (columnMajor [2, 3, 4]).getD i 0 < [2, 3, 4].prod)
      ∧ sub2ind 3 [5, 7, 4294967295] [2, 3, 4] (columnMajor [2, 3, 4]) = some 21 :=
  ⟨sub2ind_no_wrap 3 [5, 7, 4294967295] [2, 3, 4] (by decide) rfl rfl (by decide)
    (by decide), by decide⟩

/-- C16. With metadata arrays of `N` cells: for `N ≥ 3` the subscript-array form
`sub2ind<N>(subs, size, strides)` has a defined result exactly when every extent
`size[i]`, `i < N`, is non-zero, whatever the subscripts; for `N ≥ 2` the variadic form
has a defined result exactly when every extent `size[i]`, `1 ≤ i < N`, is non-zero,
whatever the arguments. With the lengths as assumed the only undefined operation is the
remainder by a zero extent. -/
theorem sub2ind_defined_iff (N : Nat) (subs xs size strides : List Nat)
    (hsubs : subs.length = N) (hxs : N - 1 ≤ xs.length) (hsize : size.length = N)
    (hstrides : strides.length = N) :
    (3 ≤ N → ((sub2ind N subs size strides).isSome = true
        ↔ ∀ i, i < N → size.getD i 0 ≠ 0))
      ∧ (2 ≤ N → ((sub2indVa N (va_start xs) size strides).isSome = true
        ↔ ∀ i, 1 ≤ i → i < N → size.getD i 0 ≠ 0)) := by
  constructor
  · intro hN
    obtain ⟨m, rfl⟩ : ∃ m, N = m + 3 := ⟨N - 3, by omega⟩
    have h := sub2indLoop_go_isSome subs size strides (m + 3) 0 0 (by omega) (by omega)
      (by omega)
    simp only [sub2ind, sub2indLoop, h, Nat.zero_add]
    constructor
    · intro h1 i hi
      exact h1 i (Nat.zero_le i) hi
    · intro h1 j _ hj
      exact h1 j hj
  · intro hN
    have h := sub2indVa_go_isSome size strides (N - 1) 1 0 xs hxs (by omega) (by omega)
    have hN1 : 1 + (N - 1) = N := by omega
    rw [hN1] at h
    rw [← h]
    simp only [sub2indVa, va_start]
    cases sub2indVa.go size strides (N - 1) 1 0 { args := xs, live := true } with
    | none => rfl
    | some r => rfl

/-- Witness of C16 at rank 3 with extents `[2,3,4]`; and the code on all-zero extents
(the empty array) and on a zero extent in dimension 0 only, which stops the
subscript-array form but not the variadic form. -/
theorem sub2ind_defined_iff_witness :
    ((3 ≤ 3 → ((sub2ind 3 [5, 7, 1] [2, 3, 4] [1, 2, 6]).isSome = true
        ↔ ∀ i, i < 3 → [2, 3, 4].getD i 0 ≠ 0))
      ∧ (2 ≤ 3 → ((sub2indVa 3 (va_start [7, 1]) [2, 3, 4] [1, 2, 6]).isSome = true
        ↔ ∀ i, 1 ≤ i → i < 3 → [2, 3, 4].getD i 0 ≠ 0)))
      ∧ sub2ind 3 [5, 7, 1] [2, 3, 4] [1, 2, 6] = some 9
      ∧ sub2ind 3 [5, 7, 1] (emptyArray 3).m_size (emptyArray 3).m_strides = none
      ∧ sub2indVa 3 (va_start [7, 1]) (emptyArray 3).m_size (emptyArray 3).m_strides = none
      ∧ sub2ind 3 [5, 7, 1] [0, 3, 4] [1, 0, 0] = none
      ∧ sub2indVa 3 (va_start [7, 1]) [0, 3, 4] [1, 0, 0]
          = some (0, { args := [], live := false }) :=
  ⟨sub2ind_defined_iff 3 [5, 7, 1] [7, 1] [2, 3, 4] [1, 2, 6] rfl (by decide) rfl rfl,
    by decide, by decide, by decide, by decide, by decide⟩

/-- C17. Over the eight unqualified types the table is injective in the name and in the
tag, every type carries one of the eight pairs int8/mxINT8_CLASS, uint8/mxUINT8_CLASS,
int16/mxINT16_CLASS, uint16/mxUINT16_CLASS, int32/mxINT32_CLASS, uint32/mxUINT32_CLASS,
single/mxSINGLE_CLASS, double/mxDOUBLE_CLASS, and two types have the same name exactly
when they have the same tag. -/
theorem mx_type_injective :
    (∀ s t : Scalar, mx_type_name (CType.plain s) = mx_type_name (CType.plain t) → s = t)
      ∧ (∀ s t : Scalar, mx_type_id (CType.plain s) = mx_type_id (CType.plain t) → s = t)
      ∧ [Scalar.char, Scalar.unsigned_char, Scalar.short, Scalar.unsigned_short, Scalar.int,
            Scalar.unsigned_int, Scalar.float, Scalar.double].map
          (fun s => (mx_type_name (CType.plain s), mx_type_id (CType.plain s)))
          = [("int8", mxClassID.mxINT8_CLASS), ("uint8", mxClassID.mxUINT8_CLASS),
              ("int16", mxClassID.mxINT16_CLASS), ("uint16", mxClassID.mxUINT16_CLASS),
              ("int32", mxClassID.mxINT32_CLASS), ("uint32", mxClassID.mxUINT32_CLASS),
              ("single", mxClassID.mxSINGLE_CLASS), ("double", mxClassID.mxDOUBLE_CLASS)]
      ∧ (∀ s t : Scalar, mx_type_name (CType.plain s) = mx_type_name (CType.plain t)
            ↔ mx_type_id (CType.plain s) = mx_type_id (CType.plain t)) := by
  refine ⟨?_, ?_, rfl, ?_⟩
  · intro s t
    cases s <;> cases t <;> simp [mx_type_name]
  · intro s t
    cases s <;> cases t <;> simp [mx_type_id]
  · intro s t
    cases s <;> cases t <;> simp [mx_type_name, mx_type_id]

end MexArrays
